import Mathlib

/-!
# Radar PDW De-Interleaving System — verification development

Shallow embedding of the core simulation-and-separation pipeline:
the window generators (`src/simulation/auto_mode.py`,
`src/simulation/manual_mode.py`), the clustering front-end
(`src/deinterleaving/logic.py`) and the DBSCAN auto-tuner and result
assembler (`src/deinterleaving/dbscan_ui.py`).

Python floats are modelled as rationals (`ℚ`); calls into numpy's random
generators are modelled by explicit draw parameters (a draw from
`np.random.uniform(lo, hi)` is a rational constrained to lie between `lo`
and `hi`; a draw from `np.random.normal(0, s)` is `s * g` for a
standard-normal draw `g`).  The sklearn clusterers (`DBSCAN`, `HDBSCAN`,
`KMeans`, `StandardScaler`) are external collaborators and appear as
function parameters; everything written in the repository itself is
embedded concretely.
-/

namespace PDW

/-- One Pulse Descriptor Word, as generated by both simulators:
keys `freq_MHz, pri_us, pw_us, doa_deg, amp_dB, toa_us`. -/
structure Pdw where
  freq_MHz : ℚ
  pri_us   : ℚ
  pw_us    : ℚ
  doa_deg  : ℚ
  amp_dB   : ℚ
  toa_us   : ℚ
  deriving DecidableEq, Repr, Inhabited

/-! ## `src/deinterleaving/logic.py` — `run_clustering`

A DataFrame cell is `Option ℚ` (`none` = NaN/missing); a row maps a
column name to a cell; the frame is the row list.  `run_clustering`'s
input `df` is `Option Frame` (`None` = missing). -/

/-- A DataFrame row: column name to cell, `none` modelling NaN. -/
def Row : Type := String → Option ℚ

/-- A DataFrame: list of rows. -/
def Frame : Type := List Row

/-- `X_custom[col] = X_custom[col] / tols[col]` for one column `col`:
pandas elementwise division, NaN cells stay NaN. -/
def divideColumn (col : String) (t : ℚ) (X : Frame) : Frame :=
  X.map (fun row => fun c => if c = col then (row c).map (· / t) else row c)

/-- The DBSCAN-branch tolerance scaling loop of `run_clustering`
(`logic.py` lines 47–49): `for col in features: if col in tols:
X_custom[col] = X_custom[col] / tols[col]`. -/
def applyTols (tols : String → Option ℚ) (features : List String) (X : Frame) : Frame :=
  features.foldl (fun acc col =>
    match tols col with
    | some t => divideColumn col t acc
    | none => acc) X

/-- `X_custom.fillna(0).values` restricted to the selected feature columns
(`df[features]` already projected the frame): the numeric matrix handed to
the clusterer, with NaN replaced by `0`. -/
def fillnaValues (features : List String) (X : Frame) : List (List ℚ) :=
  X.map (fun row => features.map (fun f => (row f).getD 0))

/-- The scaled DBSCAN input matrix `X_final` of `run_clustering`
(`logic.py` lines 44–52). -/
def dbscanMatrix (tols : String → Option ℚ) (features : List String) (df : Frame) :
    List (List ℚ) :=
  fillnaValues features (applyTols tols features df)

/-- Opaque models of the external sklearn collaborators.  `dbscanFit`
maps the concretely tolerance-scaled matrix to one integer label per
row; `hdbscanPipe` models `StandardScaler().fit_transform` followed by
the HDBSCAN `fit_predict`; `kmeansPipe` models the scaler followed by
`KMeans(**params, random_state=rs, n_init=ni).fit_predict`, with the
`random_state` seed and `n_init` as explicit arguments. -/
structure SkModels where
  dbscanFit   : List (List ℚ) → List ℤ
  hdbscanPipe : List (List (Option ℚ)) → List ℤ
  kmeansPipe  : List (List (Option ℚ)) → (randomState : ℕ) → (nInit : ℕ) → List ℤ

/-- Raw (unscaled) value matrix `df[features].values` with NaN kept. -/
def rawValues (features : List String) (df : Frame) : List (List (Option ℚ)) :=
  df.map (fun row => features.map row)

/-- `run_clustering(df, algo, params, features, custom_tols)` from
`src/deinterleaving/logic.py`.  Algorithm parameters are already baked
into the `SkModels` functions; `ambientSeed` models the global numpy /
sklearn random state that `KMeans` would consume had the code not passed
`random_state=42` — the source pins `random_state=42, n_init=10`, which
the embedding mirrors by the literal arguments `42` and `10`.
Labels are integers; `np.zeros(len(df))` is the all-zero sequence. -/
def run_clustering (sk : SkModels) (df : Option Frame) (algo : String)
    (features : List String) (tols : String → Option ℚ) (ambientSeed : ℕ) : List ℤ :=
  match df with
  | none => []
  | some rows =>
    if rows.isEmpty then []
    else if algo = "DBSCAN" then
      sk.dbscanFit (dbscanMatrix tols features rows)
    else if algo = "HDBSCAN" then
      sk.hdbscanPipe (rawValues features rows)
    else if algo = "K-Means" then
      sk.kmeansPipe (rawValues features rows) 42 10
    else
      List.replicate rows.length 0

/-! ## `src/simulation/auto_mode.py` — emitter configuration and window
generation

`np.random.shuffle` is modelled by a caller-supplied reordering function
(constrained to be a permutation where a theorem needs it); each
`np.random.uniform(lo, hi)` draw is a caller-supplied rational, lying
between `lo` and `hi` when a theorem needs it. -/

/-- Support of one `np.random.uniform(low, high)` draw.  numpy computes
`low + (high - low) * u` with `u ∈ [0, 1)`, so the draw lies between
`low` and `high` in either order (`high < low` is accepted). -/
def uniformSupport (lo hi x : ℚ) : Prop := min lo hi ≤ x ∧ x ≤ max lo hi

instance (lo hi x : ℚ) : Decidable (uniformSupport lo hi x) := by
  unfold uniformSupport; infer_instance

/-- `np.linspace(lo, hi, n)`: `n` evenly spaced points from `lo` to `hi`
inclusive. -/
def linspace (lo hi : ℚ) (n : ℕ) : List ℚ :=
  (List.range n).map (fun i => lo + (hi - lo) * i / (n - 1))

/-- `arr[1:-1]`: drop the first and last element. -/
def interior (l : List ℚ) : List ℚ := (l.drop 1).dropLast

/-- One emitter configuration as built by `generate_emitters_config`:
keys `type, freq_modes, pri_modes, pw, amp, doa`. -/
structure Emitter where
  type       : String
  freq_modes : List ℚ
  pri_modes  : List ℚ
  pw         : ℚ
  amp        : ℚ
  doa        : ℚ
  deriving DecidableEq, Repr, Inhabited

/-- Random inputs consumed by `generate_emitters_config`: the three
`np.random.shuffle` calls and the per-emitter `np.random.uniform`
draws. -/
structure ConfigDraws where
  shuffleTypes : List String → List String
  shuffleFreqs : List ℚ → List ℚ
  shufflePris  : List ℚ → List ℚ
  dFreq : ℕ → ℚ  -- uniform(-50, 50) perturbation per emitter
  dPri  : ℕ → ℚ  -- uniform(-100, 100) perturbation per emitter
  dPw   : ℕ → ℚ  -- uniform(pw_min, pw_max) per emitter
  dAmp  : ℕ → ℚ  -- uniform(amp_min, amp_max) per emitter
  dDoa  : ℕ → ℚ  -- uniform(doa_min, doa_max) per emitter

/-- `generate_emitters_config` (`auto_mode.py` lines 186–241).
`int(num_emitters * pct / 100)` truncates a nonnegative quotient, i.e.
natural division (exact in double precision over the UI's ranges);
`n_stagger` is a Python `int` that list-multiplication clamps at zero,
modelled by `Int.toNat`. -/
def generate_emitters_config (num_emitters : ℕ)
    (fixed_pct agile_pct : ℕ)
    (f_min f_max pri_min pri_max : ℚ) (d : ConfigDraws) : List Emitter :=
  let n_fixed := num_emitters * fixed_pct / 100
  let n_agile := num_emitters * agile_pct / 100
  let n_stagger : ℤ := (num_emitters : ℤ) - n_fixed - n_agile
  let emitter_types :=
    d.shuffleTypes (List.replicate n_fixed "fixed" ++ List.replicate n_agile "agile" ++
      List.replicate n_stagger.toNat "stagger")
  let base_freqs := d.shuffleFreqs (interior (linspace f_min f_max (num_emitters + 2)))
  let base_pris := d.shufflePris (interior (linspace pri_min pri_max (num_emitters + 2)))
  emitter_types.enum.map (fun p =>
    { type := p.2
      freq_modes := [base_freqs.getD p.1 0 + d.dFreq p.1]
      pri_modes := [base_pris.getD p.1 0 + d.dPri p.1]
      pw := d.dPw p.1
      amp := d.dAmp p.1
      doa := d.dDoa p.1 })

/-- The inner pulse loop of `generate_pdws_from_emitters`
(`auto_mode.py` lines 273–292): pulse index `k`, running
time-of-arrival `toa`, `n` pulses to go.  The features are the exact
mode/base values — no noise is added in auto mode — and `toa` advances
by the selected PRI after each pulse. -/
def autoEmitLoop (e : Emitter) : ℕ → ℚ → ℕ → List Pdw
  | _, _, 0 => []
  | k, toa, n + 1 =>
    let freq := e.freq_modes.getD (k % e.freq_modes.length) 0
    let pri := e.pri_modes.getD (k % e.pri_modes.length) 0
    { freq_MHz := freq, pri_us := pri, pw_us := e.pw, doa_deg := e.doa,
      amp_dB := e.amp, toa_us := toa } :: autoEmitLoop e (k + 1) (toa + pri) n

/-- `generate_pdws_from_emitters` (`auto_mode.py` lines 244–294) minus
the session bookkeeping: per emitter, a uniform start offset in
`[0, pri_modes[0])` (draw `offs i`), then the pulse loop.  Returned as
the flat row list of the DataFrame. -/
def generate_pdws_from_emitters (emitters : List Emitter) (pulses_per_emitter : ℕ)
    (window_start : ℚ) (offs : ℕ → ℚ) : List Pdw :=
  emitters.enum.flatMap (fun p =>
    autoEmitLoop p.2 0 (window_start + offs p.1) pulses_per_emitter)

/-! ## `src/simulation/manual_mode.py` — manually configured emitters -/

/-- One manually configured emitter (`manual_mode.py` lines 186–193):
keys `freqs, pri_type, pri_values, pw, amp, doa`. -/
structure ManualEmitter where
  freqs      : List ℚ
  pri_type   : String
  pri_values : List ℚ
  pw         : ℚ
  amp        : ℚ
  doa        : ℚ
  deriving DecidableEq, Repr, Inhabited

/-- The operator-configured jitter magnitudes (`manual_mode.py` lines
198–215): frequency noise in MHz, PRI and PW jitter in percent, DOA
noise in degrees.  There is no configurable amplitude noise. -/
structure ManualNoiseCfg where
  noise_freq    : ℚ
  noise_pri_pct : ℚ
  noise_pw_pct  : ℚ
  noise_doa     : ℚ
  deriving DecidableEq, Repr

/-- The standard-normal draws consumed by one manual-mode pulse: the
optional PRI self-jitter draw and the five per-feature measurement
draws (`np.random.normal(0, s)` is modelled as `s * g`). -/
structure NoiseDraws where
  jit  : ℚ
  freq : ℚ
  pri  : ℚ
  pw   : ℚ
  doa  : ℚ
  amp  : ℚ
  deriving DecidableEq, Repr, Inhabited

/-- One manual-mode pulse (`manual_mode.py` lines 256–279): mode
selection by `k mod len`, optional extra PRI jitter for a "Jittered"
emitter, then Gaussian noise per feature — std `noise_freq` for
frequency, `noise_pri_pct`% of the (jittered) PRI, `noise_pw_pct`% of
PW, `noise_doa` for DOA, and a fixed std of `1.0` dB for amplitude.
`toa` is the running time-of-arrival (the source never advances it). -/
def manualPulse (cfg : ManualNoiseCfg) (e : ManualEmitter) (k : ℕ) (toa : ℚ)
    (g : NoiseDraws) : Pdw :=
  let freq := e.freqs.getD (k % e.freqs.length) 0
  let pri0 := e.pri_values.getD (k % e.pri_values.length) 0
  let pri := if e.pri_type = "Jittered" then pri0 + (5 / 100 * pri0) * g.jit else pri0
  { freq_MHz := freq + cfg.noise_freq * g.freq
    pri_us := pri + (cfg.noise_pri_pct / 100 * pri) * g.pri
    pw_us := e.pw + (cfg.noise_pw_pct / 100 * e.pw) * g.pw
    doa_deg := e.doa + cfg.noise_doa * g.doa
    amp_dB := e.amp + 1 * g.amp
    toa_us := toa }

/-- The manual-mode window body (`manual_mode.py` lines 250–279): per
emitter a uniform start offset in `[0, pri_values[0])` (draw `offs i`),
then `pulses_per_emitter` pulses, all stamped with the same `toa`
(the source computes `toa = window_start + start_offset` and never
increments it). -/
def manualWindowRows (cfg : ManualNoiseCfg) (emitters : List ManualEmitter)
    (pulses_per_emitter : ℕ) (window_start : ℚ) (offs : ℕ → ℚ)
    (draws : ℕ → ℕ → NoiseDraws) : List Pdw :=
  emitters.enum.flatMap (fun p =>
    (List.range pulses_per_emitter).map (fun k =>
      manualPulse cfg p.2 k (window_start + offs p.1) (draws p.1 k)))

/-! ## Session time cursor (claims about `global_time_us` /
`manual_global_time_us`)

Both generation paths read the cursor as `window_start`, set
`window_end = window_start + 2e6` and store `window_end` back
(`auto_mode.py` lines 250–252, `manual_mode.py` lines 246–248), then
append the new rows to the session buffer. -/

/-- Per-mode session state: the time cursor and the append-only PDW
buffer. -/
structure Session where
  time_cursor_us : ℚ
  pdw_buffer : List Pdw

/-- One auto-mode generation call acting on the session
(`auto_mode.py` lines 151–178, window arithmetic at 250–252). -/
def autoGenerateStep (emitters : List Emitter) (ppe : ℕ) (offs : ℕ → ℚ)
    (s : Session) : Session :=
  let window_start := s.time_cursor_us
  let window_end := window_start + 2000000
  let rows := generate_pdws_from_emitters emitters ppe window_start offs
  { time_cursor_us := window_end, pdw_buffer := s.pdw_buffer ++ rows }

/-- One manual-mode generation call acting on the session
(`manual_mode.py` lines 242–285). -/
def manualGenerateStep (cfg : ManualNoiseCfg) (emitters : List ManualEmitter)
    (ppe : ℕ) (offs : ℕ → ℚ) (draws : ℕ → ℕ → NoiseDraws)
    (s : Session) : Session :=
  let window_start := s.time_cursor_us
  let window_end := window_start + 2000000
  let rows := manualWindowRows cfg emitters ppe window_start offs draws
  { time_cursor_us := window_end, pdw_buffer := s.pdw_buffer ++ rows }

/-- The arguments of one generation call, for stating properties of an
arbitrary interleaving of auto- and manual-mode calls on a session. -/
inductive GenCall where
  | auto (emitters : List Emitter) (ppe : ℕ) (offs : ℕ → ℚ)
  | manual (cfg : ManualNoiseCfg) (emitters : List ManualEmitter) (ppe : ℕ)
      (offs : ℕ → ℚ) (draws : ℕ → ℕ → NoiseDraws)

/-- Run one generation call. -/
def runCall (s : Session) : GenCall → Session
  | .auto emitters ppe offs => autoGenerateStep emitters ppe offs s
  | .manual cfg emitters ppe offs draws =>
      manualGenerateStep cfg emitters ppe offs draws s

/-- Run a sequence of generation calls. -/
def runCalls (s : Session) (cs : List GenCall) : Session :=
  cs.foldl runCall s

/-! ## `src/deinterleaving/dbscan_ui.py` — auto-tuner and result assembler -/

/-- Tuner accumulator: `best_err` (`none` models the initial
`float("inf")`) and `best_eps`. -/
structure TunerBest where
  bestErr : Option ℕ
  bestEps : ℚ
  deriving DecidableEq, Repr

/-- `err < best_err`, with `best_err = inf` encoded as `none`. -/
def errLt (err : ℕ) : Option ℕ → Bool
  | none => true
  | some b => err < b

/-- The DBSCAN auto-tuning scan (`dbscan_ui.py` lines 140–150): for
each candidate `eps` in grid order, compute
`err = abs(clusters - known_emitters)` (the opaque `errf`), keep the
candidate iff `err < best_err` (strict, so ties keep the earlier
radius), and `break` as soon as `err == 0`.  The zero-error candidate
is recorded before the break, as in the source. -/
def tuneScan (errf : ℚ → ℕ) : List ℚ → TunerBest → TunerBest
  | [], best => best
  | eps :: rest, best =>
    let err := errf eps
    let best' := if errLt err best.bestErr then ⟨some err, eps⟩ else best
    if err = 0 then best' else tuneScan errf rest best'

/-- The full auto-tune pass: initial `best_err = inf`, `best_eps = 0.5`
(`dbscan_ui.py` lines 134–135), scanning the grid
`np.arange(0.1, 3.0, 0.1)`. -/
def autoTuneDBSCAN (errf : ℚ → ℕ) (grid : List ℚ) : TunerBest :=
  tuneScan errf grid ⟨none, 1/2⟩

/-- The concrete candidate grid `np.arange(0.1, 3.0, 0.1)`:
`0.1, 0.2, …, 2.9`. -/
def epsGrid : List ℚ := (List.range 29).map (fun i => (i + 1) / 10)

/-- The same scan without the zero-error break, used to state that the
break changes nothing beyond truncating the grid. -/
def tuneScanNoStop (errf : ℚ → ℕ) : List ℚ → TunerBest → TunerBest
  | [], best => best
  | eps :: rest, best =>
    let err := errf eps
    tuneScanNoStop errf rest (if errLt err best.bestErr then ⟨some err, eps⟩ else best)

/-- The prefix of the grid the scan actually visits: everything up to
and including the first zero-error candidate. -/
def scannedPrefix (errf : ℚ → ℕ) : List ℚ → List ℚ
  | [] => []
  | eps :: rest => if errf eps = 0 then [eps] else eps :: scannedPrefix errf rest

/-! ### Result assembler (`dbscan_ui.py` lines 186–197)

```
unique = sorted(set(labels))
label_map = {l: i + 1 for i, l in enumerate(unique) if l != -1}
label_map[-1] = 0
mapped = [label_map[l] for l in labels]
```
-/

/-- `sorted(set(labels))`: the distinct labels in increasing order. -/
def uniqueSorted (labels : List ℤ) : List ℤ :=
  labels.dedup.insertionSort (· ≤ ·)

/-- The dictionary `label_map`: `-1 ↦ 0`, any other label `l ↦` its
position in `sorted(set(labels))` plus one (`enumerate` runs before the
`if l != -1` filter, so positions are *not* re-packed after dropping
`-1`). -/
def labelMap (labels : List ℤ) (l : ℤ) : ℤ :=
  if l = -1 then 0 else ((uniqueSorted labels).indexOf l : ℤ) + 1

/-- `mapped = [label_map[l] for l in labels]`. -/
def mapLabels (labels : List ℤ) : List ℤ :=
  labels.map (labelMap labels)

/-- Summary statistics (`dbscan_ui.py` lines 193–197): detected
cluster count and unassigned pulse count over the mapped ids. -/
def assembleSummary (mapped : List ℤ) : ℤ × ℕ :=
  ((mapped.dedup.length : ℤ) - (if 0 ∈ mapped then 1 else 0), mapped.count 0)

/-- Modelled from the spec (§4.1 Window Generator): "add independent
zero-mean Gaussian noise to each of the five features (frequency, PRI,
pulse width, DOA, amplitude) using the configured standard deviations".
Given the nominal pulse and the five per-feature standard deviations,
each emitted feature is the nominal value plus the scaled
standard-normal draw. -/
def specNoisyPulse (sf sp spw sd sa : ℚ) (nominal : Pdw) (g : NoiseDraws) : Pdw :=
  { freq_MHz := nominal.freq_MHz + sf * g.freq
    pri_us := nominal.pri_us + sp * g.pri
    pw_us := nominal.pw_us + spw * g.pw
    doa_deg := nominal.doa_deg + sd * g.doa
    amp_dB := nominal.amp_dB + sa * g.amp
    toa_us := nominal.toa_us }

/-!
# Helper lemmas
-/

/-- Per-row version of the tolerance-scaling loop: the fold updates one
column at a time inside each row. -/
def applyTolsRow (tols : String → Option ℚ) (features : List String) (row : Row) : Row :=
  features.foldl (fun r col =>
    match tols col with
    | some t => fun c => if c = col then (r c).map (· / t) else r c
    | none => r) row

theorem applyTolsRow_cons (tols : String → Option ℚ) (c : String)
    (rest : List String) (row : Row) :
    applyTolsRow tols (c :: rest) row =
      applyTolsRow tols rest
        (match tols c with
         | some t => fun x => if x = c then (row x).map (· / t) else row x
         | none => row) := rfl

theorem applyTols_cons (tols : String → Option ℚ) (f : String)
    (rest : List String) (X : Frame) :
    applyTols tols (f :: rest) X =
      applyTols tols rest
        (match tols f with
         | some t => divideColumn f t X
         | none => X) := rfl

theorem applyTols_eq_map (tols : String → Option ℚ) (features : List String)
    (X : Frame) : applyTols tols features X = X.map (applyTolsRow tols features) := by
  induction features generalizing X with
  | nil =>
    show X = X.map (fun row => row)
    exact (List.map_id' X).symm
  | cons f rest ih =>
    rw [applyTols_cons]
    cases hf : tols f with
    | none =>
      rw [ih]
      apply List.map_congr_left
      intro row _
      rw [applyTolsRow_cons, hf]
    | some t =>
      rw [ih]
      simp only [divideColumn, List.map_map]
      apply List.map_congr_left
      intro row _
      rw [applyTolsRow_cons, hf]
      rfl

theorem applyTolsRow_not_mem (tols : String → Option ℚ) (features : List String)
    (row : Row) (f : String) (hf : f ∉ features) :
    applyTolsRow tols features row f = row f := by
  induction features generalizing row with
  | nil => rfl
  | cons c rest ih =>
    have hfc : f ≠ c := fun h => hf (h ▸ List.mem_cons_self c rest)
    have hfr : f ∉ rest := fun h => hf (List.mem_cons_of_mem c h)
    rw [applyTolsRow_cons]
    cases hc : tols c with
    | none => exact ih row hfr
    | some t =>
      rw [ih _ hfr]
      simp [hfc]

theorem applyTolsRow_mem (tols : String → Option ℚ) (features : List String)
    (row : Row) (f : String) (hnd : features.Nodup) (hf : f ∈ features) :
    applyTolsRow tols features row f =
      match tols f with
      | some t => (row f).map (· / t)
      | none => row f := by
  induction features generalizing row with
  | nil => cases hf
  | cons c rest ih =>
    rw [applyTolsRow_cons]
    rcases List.mem_cons.mp hf with rfl | hfr
    · have hfnotr : f ∉ rest := (List.nodup_cons.mp hnd).1
      cases hc : tols f with
      | none => rw [applyTolsRow_not_mem tols rest row f hfnotr]
      | some t =>
        rw [applyTolsRow_not_mem tols rest _ f hfnotr]
        simp
    · have hnd' : rest.Nodup := (List.nodup_cons.mp hnd).2
      have hfc : f ≠ c := fun h => (List.nodup_cons.mp hnd).1 (h ▸ hfr)
      cases hc : tols c with
      | none => exact ih _ hnd' hfr
      | some t =>
        rw [ih _ hnd' hfr]
        simp [hfc]

theorem tuneScan_eq_noStop (errf : ℚ → ℕ) (grid : List ℚ) (b : TunerBest) :
    tuneScan errf grid b = tuneScanNoStop errf (scannedPrefix errf grid) b := by
  induction grid generalizing b with
  | nil => rfl
  | cons eps rest ih =>
    by_cases h0 : errf eps = 0
    · simp [tuneScan, scannedPrefix, tuneScanNoStop, h0]
    · simp only [tuneScan, scannedPrefix, tuneScanNoStop, h0, if_neg, if_false]
      rw [ih]

theorem scannedPrefix_isPrefix (errf : ℚ → ℕ) (grid : List ℚ) :
    (scannedPrefix errf grid).IsPrefix grid := by
  induction grid with
  | nil => exact List.prefix_refl _
  | cons eps rest ih =>
    by_cases h0 : errf eps = 0
    · simp only [scannedPrefix, h0, if_pos]
      exact ⟨rest, rfl⟩
    · simp only [scannedPrefix, h0, if_neg, if_false]
      obtain ⟨t, ht⟩ := ih
      exact ⟨t, by rw [List.cons_append, ht]⟩

theorem scannedPrefix_dropLast_ne_zero (errf : ℚ → ℕ) (grid : List ℚ) :
    ∀ e ∈ (scannedPrefix errf grid).dropLast, errf e ≠ 0 := by
  induction grid with
  | nil => intro e he; cases he
  | cons eps rest ih =>
    intro e he
    by_cases h0 : errf eps = 0
    · simp [scannedPrefix, h0] at he
    · simp only [scannedPrefix, h0, if_neg, if_false] at he
      cases hsp : scannedPrefix errf rest with
      | nil => rw [hsp] at he; simp at he
      | cons a l =>
        rw [hsp] at he
        rw [List.dropLast_cons₂] at he
        rcases List.mem_cons.mp he with rfl | hmem
        · exact h0
        · exact ih e (hsp ▸ hmem)

theorem scannedPrefix_stops_at_zero (errf : ℚ → ℕ) (grid : List ℚ) :
    ∀ i x, grid.get? i = some x → errf x = 0 →
      (scannedPrefix errf grid).length ≤ i + 1 := by
  induction grid with
  | nil => intro i x hget; cases i <;> simp at hget
  | cons eps rest ih =>
    intro i x hget hx
    by_cases h0 : errf eps = 0
    · simp [scannedPrefix, h0]
    · simp only [scannedPrefix, h0, if_neg, if_false, List.length_cons]
      cases i with
      | zero =>
        simp at hget
        subst hget
        exact absurd hx h0
      | succ j =>
        simp only [List.get?_cons_succ] at hget
        have := ih j x hget hx
        omega

/-- The break-free scan selects the first element attaining the minimum
error (strict improvement only, so ties keep the earlier candidate), or
keeps the accumulator when nothing improves on it. -/
theorem tuneScanNoStop_spec (errf : ℚ → ℕ) (l : List ℚ) (b : TunerBest) :
    (tuneScanNoStop errf l b = b ∧ ∀ e ∈ l, errLt (errf e) b.bestErr = false) ∨
    (∃ i x, l.get? i = some x ∧
      (tuneScanNoStop errf l b).bestEps = x ∧
      (tuneScanNoStop errf l b).bestErr = some (errf x) ∧
      errLt (errf x) b.bestErr = true ∧
      (∀ j y, l.get? j = some y → errf x ≤ errf y) ∧
      (∀ j y, j < i → l.get? j = some y → errf x < errf y)) := by
  induction l generalizing b with
  | nil => left; exact ⟨rfl, by intro e he; cases he⟩
  | cons eps rest ih =>
    by_cases himp : errLt (errf eps) b.bestErr = true
    · -- the head strictly improves: recurse with accumulator ⟨some (errf eps), eps⟩
      have hrec : tuneScanNoStop errf (eps :: rest) b =
          tuneScanNoStop errf rest ⟨some (errf eps), eps⟩ := by
        simp [tuneScanNoStop, himp]
      rcases ih ⟨some (errf eps), eps⟩ with ⟨heq, hall⟩ | ⟨i, x, hget, heps, herr, himp', hmin, hfirst⟩
      · right
        refine ⟨0, eps, rfl, ?_, ?_, himp, ?_, ?_⟩
        · rw [hrec, heq]
        · rw [hrec, heq]
        · intro j y hget
          cases j with
          | zero => simp at hget; subst hget; exact le_refl _
          | succ k =>
            simp only [List.get?_cons_succ] at hget
            have := hall y (List.get?_mem hget)
            simp [errLt] at this
            omega
        · intro j y hj hget; omega
      · right
        have hlt : errf x < errf eps := by
          simp [errLt] at himp'
          exact himp'
        refine ⟨i + 1, x, by simpa using hget, by rw [hrec]; exact heps,
          by rw [hrec]; exact herr, ?_, ?_, ?_⟩
        · -- errf x < errf eps and errf eps improves on b, so errf x improves on b
          cases hb : b.bestErr with
          | none => rfl
          | some v =>
            rw [hb] at himp
            simp [errLt] at himp ⊢
            omega
        · intro j y hgety
          cases j with
          | zero => simp at hgety; subst hgety; exact le_of_lt hlt
          | succ k =>
            simp only [List.get?_cons_succ] at hgety
            exact hmin k y hgety
        · intro j y hj hgety
          cases j with
          | zero => simp at hgety; subst hgety; exact hlt
          | succ k =>
            simp only [List.get?_cons_succ] at hgety
            exact hfirst k y (by omega) hgety
    · -- the head does not improve: accumulator unchanged
      have hne : errLt (errf eps) b.bestErr = false := by
        cases h : errLt (errf eps) b.bestErr
        · rfl
        · exact absurd h himp
      have hrec : tuneScanNoStop errf (eps :: rest) b = tuneScanNoStop errf rest b := by
        simp [tuneScanNoStop, hne]
      -- b.bestErr is some finite value v with errf eps ≥ v
      obtain ⟨v, hv, hge⟩ : ∃ v, b.bestErr = some v ∧ v ≤ errf eps := by
        cases hb : b.bestErr with
        | none => rw [hb] at hne; simp [errLt] at hne
        | some v =>
          rw [hb] at hne
          simp [errLt] at hne
          exact ⟨v, rfl, hne⟩
      rcases ih b with ⟨heq, hall⟩ | ⟨i, x, hget, heps, herr, himp', hmin, hfirst⟩
      · left
        refine ⟨by rw [hrec, heq], ?_⟩
        intro e he
        rcases List.mem_cons.mp he with rfl | hmem
        · exact hne
        · exact hall e hmem
      · right
        have hxv : errf x < v := by
          rw [hv] at himp'
          simpa [errLt] using himp'
        refine ⟨i + 1, x, by simpa using hget, by rw [hrec]; exact heps,
          by rw [hrec]; exact herr, himp', ?_, ?_⟩
        · intro j y hgety
          cases j with
          | zero => simp at hgety; subst hgety; omega
          | succ k =>
            simp only [List.get?_cons_succ] at hgety
            exact hmin k y hgety
        · intro j y hj hgety
          cases j with
          | zero => simp at hgety; subst hgety; omega
          | succ k =>
            simp only [List.get?_cons_succ] at hgety
            exact hfirst k y (by omega) hgety

theorem getD_zero_nonneg {l : List ℚ} (h : ∀ p ∈ l, 0 ≤ p) (i : ℕ) :
    0 ≤ l.getD i 0 := by
  rw [List.getD_eq_getElem?_getD]
  cases hg : l[i]? with
  | none => simp
  | some v =>
    simp only [Option.getD_some]
    exact h v (List.getElem?_mem hg)

theorem autoEmitLoop_toa (e : Emitter) (hpri : ∀ p ∈ e.pri_modes, 0 ≤ p) :
    ∀ (n k : ℕ) (toa : ℚ), ∀ pdw ∈ autoEmitLoop e k toa n, toa ≤ pdw.toa_us := by
  intro n
  induction n with
  | zero => intro k toa pdw hmem; cases hmem
  | succ m ih =>
    intro k toa pdw hmem
    rcases List.mem_cons.mp hmem with rfl | hmem'
    · exact le_refl _
    · have hstep : 0 ≤ e.pri_modes.getD (k % e.pri_modes.length) 0 :=
        getD_zero_nonneg hpri _
      have := ih (k + 1) (toa + e.pri_modes.getD (k % e.pri_modes.length) 0) pdw hmem'
      linarith

theorem autoEmitLoop_mem_features (e : Emitter) :
    ∀ (n k : ℕ) (toa : ℚ) (pdw : Pdw), pdw ∈ autoEmitLoop e k toa n →
      ∃ j, j < n ∧
        pdw.freq_MHz = e.freq_modes.getD ((k + j) % e.freq_modes.length) 0 ∧
        pdw.pri_us = e.pri_modes.getD ((k + j) % e.pri_modes.length) 0 ∧
        pdw.pw_us = e.pw ∧ pdw.doa_deg = e.doa ∧ pdw.amp_dB = e.amp := by
  intro n
  induction n with
  | zero => intro k toa pdw hmem; cases hmem
  | succ m ih =>
    intro k toa pdw hmem
    rcases List.mem_cons.mp hmem with rfl | hmem'
    · exact ⟨0, Nat.succ_pos m, rfl, rfl, rfl, rfl, rfl⟩
    · obtain ⟨j, hj, hf, hp, hw, hd, ha⟩ := ih (k + 1) _ pdw hmem'
      have harith : k + 1 + j = k + (j + 1) := by omega
      refine ⟨j + 1, by omega, ?_, ?_, hw, hd, ha⟩
      · rw [hf, harith]
      · rw [hp, harith]

theorem uniqueSorted_nodup (labels : List ℤ) : (uniqueSorted labels).Nodup :=
  ((List.perm_insertionSort _ _).nodup_iff).mpr (List.nodup_dedup labels)

theorem uniqueSorted_mem (labels : List ℤ) (x : ℤ) :
    x ∈ uniqueSorted labels ↔ x ∈ labels := by
  rw [uniqueSorted, (List.perm_insertionSort _ _).mem_iff, List.mem_dedup]

theorem uniqueSorted_pairwise_lt (labels : List ℤ) :
    (uniqueSorted labels).Pairwise (· < ·) := by
  have h1 : (uniqueSorted labels).Pairwise (· ≤ ·) := List.sorted_insertionSort _ _
  have h2 : (uniqueSorted labels).Pairwise (· ≠ ·) := uniqueSorted_nodup labels
  exact (h1.and h2).imp (fun h => lt_of_le_of_ne h.1 h.2)

theorem uniqueSorted_indexOf_strictMono (labels : List ℤ) {x y : ℤ}
    (hx : x ∈ uniqueSorted labels) (hy : y ∈ uniqueSorted labels) (hxy : x < y) :
    (uniqueSorted labels).indexOf x < (uniqueSorted labels).indexOf y := by
  have hxl : (uniqueSorted labels).indexOf x < (uniqueSorted labels).length :=
    List.indexOf_lt_length.mpr hx
  have hyl : (uniqueSorted labels).indexOf y < (uniqueSorted labels).length :=
    List.indexOf_lt_length.mpr hy
  by_contra hle
  push_neg at hle
  rcases lt_or_eq_of_le hle with hlt | heq
  · have hp := List.pairwise_iff_get.mp (uniqueSorted_pairwise_lt labels)
      ⟨_, hyl⟩ ⟨_, hxl⟩ hlt
    rw [List.indexOf_get, List.indexOf_get] at hp
    exact absurd hxy (not_lt.mpr hp.le)
  · have hgx := List.indexOf_get hxl
    have hgy := List.indexOf_get hyl
    have : y = x := by
      rw [← hgx, ← hgy]
      congr 1
      exact Fin.ext heq
    exact absurd hxy (by simp [this])

theorem uniqueSorted_indexOf_neg_one (labels : List ℤ)
    (hge : ∀ l ∈ labels, -1 ≤ l) (hmem : (-1 : ℤ) ∈ labels) :
    (uniqueSorted labels).indexOf (-1) = 0 := by
  have hu : (-1 : ℤ) ∈ uniqueSorted labels := (uniqueSorted_mem _ _).mpr hmem
  have hl : (uniqueSorted labels).indexOf (-1) < (uniqueSorted labels).length :=
    List.indexOf_lt_length.mpr hu
  by_contra h0
  have hpos : 0 < (uniqueSorted labels).indexOf (-1) := Nat.pos_of_ne_zero h0
  have h0len : 0 < (uniqueSorted labels).length := lt_trans hpos hl
  have hp := List.pairwise_iff_get.mp (uniqueSorted_pairwise_lt labels)
    ⟨0, h0len⟩ ⟨_, hl⟩ hpos
  rw [List.indexOf_get] at hp
  have hmem0 : (uniqueSorted labels).get ⟨0, h0len⟩ ∈ labels :=
    (uniqueSorted_mem _ _).mp (List.get_mem _ _ _)
  have := hge _ hmem0
  linarith

theorem uniqueSorted_eq_neg_one_cons (labels : List ℤ)
    (hge : ∀ l ∈ labels, -1 ≤ l) (hmem : (-1 : ℤ) ∈ labels) :
    ∃ t, uniqueSorted labels = -1 :: t ∧ (-1 : ℤ) ∉ t := by
  have h0 := uniqueSorted_indexOf_neg_one labels hge hmem
  have hu : (-1 : ℤ) ∈ uniqueSorted labels := (uniqueSorted_mem _ _).mpr hmem
  have hnodup := uniqueSorted_nodup labels
  cases hcase : uniqueSorted labels with
  | nil => rw [hcase] at hu; cases hu
  | cons a t =>
    rw [hcase] at h0 hnodup
    have ha : a = -1 := by
      by_contra hne
      rw [List.indexOf_cons_ne t hne] at h0
      exact Nat.succ_ne_zero _ h0
    subst ha
    exact ⟨t, rfl, (List.nodup_cons.mp hnodup).1⟩

/-- The number of distinct non-noise labels, expressed through the
sorted distinct label list: it is the full distinct count minus one
exactly when the noise label `-1` occurs. -/
theorem distinct_nonnoise_length (labels : List ℤ) (hge : ∀ l ∈ labels, -1 ≤ l) :
    ((labels.filter (fun l => l ≠ -1)).dedup).length =
      (uniqueSorted labels).length - (if (-1 : ℤ) ∈ labels then 1 else 0) := by
  have hperm : ((labels.filter (fun l => l ≠ -1)).dedup).Perm
      ((uniqueSorted labels).filter (fun l => l ≠ -1)) := by
    rw [List.perm_ext_iff_of_nodup (List.nodup_dedup _)
      ((uniqueSorted_nodup labels).filter _)]
    intro a
    simp only [List.mem_dedup, List.mem_filter, uniqueSorted_mem, decide_eq_true_eq]
  rw [hperm.length_eq]
  by_cases hmem : (-1 : ℤ) ∈ labels
  · obtain ⟨t, hu, hnt⟩ := uniqueSorted_eq_neg_one_cons labels hge hmem
    rw [hu, if_pos hmem, List.filter_cons]
    rw [if_neg (by simp)]
    have hself : t.filter (fun l => decide (l ≠ -1)) = t := by
      rw [List.filter_eq_self]
      intro a ha
      simp only [decide_eq_true_eq]
      intro h
      exact hnt (h ▸ ha)
    rw [hself]
    simp
  · have hself : (uniqueSorted labels).filter (fun l => decide (l ≠ -1)) =
        uniqueSorted labels := by
      rw [List.filter_eq_self]
      intro a ha
      simp only [decide_eq_true_eq]
      intro h
      exact hmem (h ▸ (uniqueSorted_mem labels a).mp ha)
    rw [hself, if_neg hmem]
    simp

/-!
# Theorems
-/

/-- C3: `run_clustering` returns an empty label sequence without error
when the input DataFrame is missing or empty, and for every non-empty
input with an algorithm name outside {DBSCAN, HDBSCAN, K-Means} it
returns an all-zero label sequence of length equal to the number of
input rows. -/
theorem C3_run_clustering_defensive (sk : SkModels) (features : List String)
    (tols : String → Option ℚ) (seed : ℕ) (algo : String) (rows : Frame) :
    run_clustering sk none algo features tols seed = [] ∧
    (rows = [] → run_clustering sk (some rows) algo features tols seed = []) ∧
    (rows ≠ [] → algo ≠ "DBSCAN" → algo ≠ "HDBSCAN" → algo ≠ "K-Means" →
      run_clustering sk (some rows) algo features tols seed =
        List.replicate rows.length 0 ∧
      (run_clustering sk (some rows) algo features tols seed).length = rows.length ∧
      ∀ l ∈ run_clustering sk (some rows) algo features tols seed, l = 0) := by
  refine ⟨rfl, ?_, ?_⟩
  · rintro rfl
    simp [run_clustering]
  · intro hne hd hh hk
    have hempty : rows.isEmpty = false := by
      simpa [List.isEmpty_iff] using hne
    constructor
    · simp [run_clustering, hempty, hd, hh, hk]
    constructor
    · simp [run_clustering, hempty, hd, hh, hk]
    · intro l hl
      simp only [run_clustering, hempty, hd, hh, hk] at hl
      simp at hl
      exact hl.2

/-- Witness for C3 at a concrete one-row frame and the algorithm name
"Affinity". -/
theorem C3_run_clustering_defensive_witness :
    run_clustering ⟨fun _ => [], fun _ => [], fun _ _ _ => []⟩
        (some [fun _ => none]) "Affinity" ["freq_MHz"] (fun _ => none) 0 =
      [0] := by
  have h := C3_run_clustering_defensive ⟨fun _ => [], fun _ => [], fun _ _ _ => []⟩
    ["freq_MHz"] (fun _ => none) 0 "Affinity" [fun _ => none]
  have h3 := h.2.2 (by simp) (by decide) (by decide) (by decide)
  simpa using h3.1

/-- C10: the K-Means path of `run_clustering` is deterministic — its
result does not depend on the ambient random state, because the source
constructs the clusterer with the literal `random_state=42` and
`n_init=10`; two calls with equal inputs therefore produce identical
label sequences. -/
theorem C10_kmeans_deterministic (sk : SkModels) (df : Option Frame)
    (features : List String) (tols : String → Option ℚ) (seed₁ seed₂ : ℕ) :
    run_clustering sk df "K-Means" features tols seed₁ =
      run_clustering sk df "K-Means" features tols seed₂ ∧
    (∀ rows : Frame, df = some rows → rows ≠ [] →
      run_clustering sk df "K-Means" features tols seed₁ =
        sk.kmeansPipe (rawValues features rows) 42 10) := by
  refine ⟨rfl, ?_⟩
  rintro rows rfl hne
  have hempty : rows.isEmpty = false := by
    simpa [List.isEmpty_iff] using hne
  simp [run_clustering, hempty]

/-- Witness for C10 at a concrete non-empty frame. -/
theorem C10_kmeans_deterministic_witness :
    run_clustering ⟨fun _ => [], fun _ => [], fun m rs ni => [(m.length : ℤ) + rs + ni]⟩
        (some [fun _ => some 1]) "K-Means" ["freq_MHz"] (fun _ => none) 7 =
      [53] := by
  have h := C10_kmeans_deterministic
    ⟨fun _ => [], fun _ => [], fun m rs ni => [(m.length : ℤ) + rs + ni]⟩
    (some [fun _ => some 1]) ["freq_MHz"] (fun _ => none) 7 99
  have h2 := h.2 [fun _ => some 1] rfl (by simp)
  rw [h2]
  simp [rawValues]

/-- C5: every window-generation call (auto or manual) advances the
session time cursor by exactly 2,000,000 µs, a run of `n` calls
advances it by exactly `n · 2,000,000` µs, and across any sequence of
generation calls the cursor never decreases. -/
theorem C5_time_cursor_advance :
    (∀ (s : Session) (c : GenCall),
        (runCall s c).time_cursor_us = s.time_cursor_us + 2000000) ∧
    (∀ (s : Session) (cs : List GenCall),
        (runCalls s cs).time_cursor_us = s.time_cursor_us + cs.length * 2000000) ∧
    (∀ (s : Session) (cs : List GenCall),
        s.time_cursor_us ≤ (runCalls s cs).time_cursor_us) := by
  have hstep : ∀ (s : Session) (c : GenCall),
      (runCall s c).time_cursor_us = s.time_cursor_us + 2000000 := by
    intro s c
    cases c <;> rfl
  have hrun : ∀ (cs : List GenCall) (s : Session),
      (runCalls s cs).time_cursor_us = s.time_cursor_us + cs.length * 2000000 := by
    intro cs
    induction cs with
    | nil => intro s; simp [runCalls]
    | cons c rest ih =>
      intro s
      have : runCalls s (c :: rest) = runCalls (runCall s c) rest := rfl
      rw [this, ih, hstep]
      simp only [List.length_cons]
      push_cast
      ring
  refine ⟨hstep, fun s cs => hrun cs s, ?_⟩
  intro s cs
  rw [hrun cs s]
  have : (0 : ℚ) ≤ cs.length * 2000000 := by positivity
  linarith

/-- C8: every emitter configuration produced by
`generate_emitters_config` has a `freq_modes` list of length exactly 1
and a `pri_modes` list of length exactly 1, whatever its behavior
class. -/
theorem C8_singleton_modes (num_emitters fixed_pct agile_pct : ℕ)
    (f_min f_max pri_min pri_max : ℚ) (d : ConfigDraws) (e : Emitter)
    (he : e ∈ generate_emitters_config num_emitters fixed_pct agile_pct
      f_min f_max pri_min pri_max d) :
    e.freq_modes.length = 1 ∧ e.pri_modes.length = 1 := by
  simp only [generate_emitters_config, List.mem_map] at he
  obtain ⟨p, -, rfl⟩ := he
  exact ⟨rfl, rfl⟩

/-- C1 amended: the result assembler maps the noise label `-1` to id `0`
and the `K` distinct non-noise labels, in increasing label order (a
stable deterministic order), onto *consecutive* ids — but these ids are
`1..K` only when the noise label is absent; when `-1` occurs among the
labels they are `2..K+1`, because the source enumerates the sorted
distinct labels *before* filtering out `-1`
(`{l: i + 1 for i, l in enumerate(unique) if l != -1}`). -/
theorem C1_emitter_id_renumbering (labels : List ℤ)
    (hge : ∀ l ∈ labels, -1 ≤ l) :
    (mapLabels labels).length = labels.length ∧
    (∀ i l m, labels.get? i = some l → (mapLabels labels).get? i = some m →
      (l = -1 ↔ m = 0)) ∧
    ((mapLabels labels).filter (fun m => m ≠ 0)).toFinset =
      Finset.Icc (if (-1 : ℤ) ∈ labels then (2 : ℤ) else 1)
        ((if (-1 : ℤ) ∈ labels then (1 : ℤ) else 0) +
          (((labels.filter (fun l => l ≠ -1)).dedup).length : ℤ)) ∧
    (∀ l₁ ∈ labels, ∀ l₂ ∈ labels, l₁ ≠ -1 → l₂ ≠ -1 → l₁ < l₂ →
      labelMap labels l₁ < labelMap labels l₂) := by
  refine ⟨by simp [mapLabels], ?_, ?_, ?_⟩
  · -- positionwise: label = -1 iff mapped id = 0
    intro i l m hl hm
    rw [mapLabels, List.get?_map, hl, Option.map_some'] at hm
    have hm' : m = labelMap labels l := (Option.some_inj.mp hm).symm
    subst hm'
    constructor
    · intro h; subst h; simp [labelMap]
    · intro h0
      by_contra hne
      rw [labelMap, if_neg hne] at h0
      omega
  · -- the mapped non-noise ids are the consecutive block
    apply Finset.ext
    intro m
    simp only [List.mem_toFinset, List.mem_filter, Finset.mem_Icc, decide_eq_true_eq]
    constructor
    · rintro ⟨hm_mem, hm_ne⟩
      rw [mapLabels, List.mem_map] at hm_mem
      obtain ⟨l, hl_mem, hl_eq⟩ := hm_mem
      have hlne : l ≠ -1 := by
        rintro rfl
        rw [labelMap, if_pos rfl] at hl_eq
        exact hm_ne hl_eq.symm
      rw [labelMap, if_neg hlne] at hl_eq
      have hlu : l ∈ uniqueSorted labels := (uniqueSorted_mem _ _).mpr hl_mem
      have hidx : (uniqueSorted labels).indexOf l < (uniqueSorted labels).length :=
        List.indexOf_lt_length.mpr hlu
      have hK := distinct_nonnoise_length labels hge
      by_cases hmem : (-1 : ℤ) ∈ labels
      · have h0 := uniqueSorted_indexOf_neg_one labels hge hmem
        have hne0 : (uniqueSorted labels).indexOf l ≠ 0 := by
          intro h
          have hgl := List.indexOf_get hidx
          have hlt0 : (uniqueSorted labels).indexOf (-1) < (uniqueSorted labels).length :=
            List.indexOf_lt_length.mpr ((uniqueSorted_mem _ _).mpr hmem)
          have hg0 := List.indexOf_get hlt0
          simp only [h] at hgl
          simp only [h0] at hg0
          exact hlne (hgl ▸ hg0 ▸ rfl)
        rw [if_pos hmem] at hK
        rw [if_pos hmem, if_pos hmem]
        omega
      · rw [if_neg hmem] at hK
        rw [if_neg hmem, if_neg hmem]
        omega
    · intro hbounds
      have hK := distinct_nonnoise_length labels hge
      by_cases hmem : (-1 : ℤ) ∈ labels
      · rw [if_pos hmem] at hK
        rw [if_pos hmem, if_pos hmem] at hbounds
        obtain ⟨h1, h2⟩ := hbounds
        have hlen0 : 0 < (uniqueSorted labels).length :=
          List.length_pos.mpr (List.ne_nil_of_mem ((uniqueSorted_mem _ _).mpr hmem))
        have hi : 1 ≤ (m - 1).toNat ∧ (m - 1).toNat < (uniqueSorted labels).length := by
          omega
        have hgi_mem : (uniqueSorted labels).get ⟨(m - 1).toNat, hi.2⟩ ∈ labels :=
          (uniqueSorted_mem _ _).mp (List.get_mem _ _ _)
        have hio : List.indexOf ((uniqueSorted labels).get ⟨(m - 1).toNat, hi.2⟩)
            (uniqueSorted labels) = (m - 1).toNat :=
          List.get_indexOf (uniqueSorted_nodup labels) ⟨(m - 1).toNat, hi.2⟩
        have hne : (uniqueSorted labels).get ⟨(m - 1).toNat, hi.2⟩ ≠ -1 := by
          intro h
          rw [h] at hio
          rw [uniqueSorted_indexOf_neg_one labels hge hmem] at hio
          omega
        refine ⟨?_, by omega⟩
        rw [mapLabels, List.mem_map]
        refine ⟨(uniqueSorted labels).get ⟨(m - 1).toNat, hi.2⟩, hgi_mem, ?_⟩
        rw [labelMap, if_neg hne, hio]
        omega
      · rw [if_neg hmem] at hK
        rw [if_neg hmem, if_neg hmem] at hbounds
        obtain ⟨h1, h2⟩ := hbounds
        have hlen0 : 0 < (uniqueSorted labels).length := by omega
        have hi : (m - 1).toNat < (uniqueSorted labels).length := by omega
        have hgi_mem : (uniqueSorted labels).get ⟨(m - 1).toNat, hi⟩ ∈ labels :=
          (uniqueSorted_mem _ _).mp (List.get_mem _ _ _)
        have hio : List.indexOf ((uniqueSorted labels).get ⟨(m - 1).toNat, hi⟩)
            (uniqueSorted labels) = (m - 1).toNat :=
          List.get_indexOf (uniqueSorted_nodup labels) ⟨(m - 1).toNat, hi⟩
        have hne : (uniqueSorted labels).get ⟨(m - 1).toNat, hi⟩ ≠ -1 := by
          intro h
          exact hmem (h ▸ hgi_mem)
        refine ⟨?_, by omega⟩
        rw [mapLabels, List.mem_map]
        refine ⟨(uniqueSorted labels).get ⟨(m - 1).toNat, hi⟩, hgi_mem, ?_⟩
        rw [labelMap, if_neg hne, hio]
        omega
  · -- increasing label order is preserved by the renumbering
    intro l₁ h₁ l₂ h₂ hn₁ hn₂ hlt
    rw [labelMap, if_neg hn₁, labelMap, if_neg hn₂]
    have := uniqueSorted_indexOf_strictMono labels
      ((uniqueSorted_mem _ _).mpr h₁) ((uniqueSorted_mem _ _).mpr h₂) hlt
    omega

/-- C1 counterexample: on the engine-producible label sequence `[-1, 0]`
(one cluster plus noise) the assembler outputs ids `[0, 2]`: there is
`K = 1` distinct non-noise label, yet the assigned id `2` exceeds `K`
(and id `1` is skipped), so the non-noise ids are not the dense block
`1..K`. -/
theorem C1_emitter_id_renumbering_counterexample :
    mapLabels [-1, 0] = [0, 2] ∧
    (([-1, 0] : List ℤ).filter (fun l => l ≠ -1)).dedup.length = 1 ∧
    ∃ m ∈ mapLabels [-1, 0],
      (((([-1, 0] : List ℤ).filter (fun l => l ≠ -1)).dedup.length : ℤ)) < m := by
  refine ⟨by decide, by decide, 2, by decide, by decide⟩

/-- Witness for the amended C1 on the concrete label sequence
`[-1, 0, 3, 0]`. -/
theorem C1_emitter_id_renumbering_witness :
    (∀ l ∈ ([-1, 0, 3, 0] : List ℤ), -1 ≤ l) ∧
    (mapLabels [-1, 0, 3, 0]).length = ([-1, 0, 3, 0] : List ℤ).length :=
  ⟨by decide, (C1_emitter_id_renumbering [-1, 0, 3, 0] (by decide)).1⟩

/-- C4: the auto-tuner's grid scan visits exactly the prefix of the grid
up to and including the first zero-error candidate (stopping there
without completing the grid), never raises (it is a total function with
the default `eps = 0.5` on an empty grid), and over the visited prefix
it retains the candidate with the smallest error, ties broken in favor
of the first (smallest) radius attaining it. -/
theorem C4_autotuner_scan (errf : ℚ → ℕ) (grid : List ℚ) :
    autoTuneDBSCAN errf grid =
      tuneScanNoStop errf (scannedPrefix errf grid) ⟨none, 1/2⟩ ∧
    (scannedPrefix errf grid).IsPrefix grid ∧
    (∀ e ∈ (scannedPrefix errf grid).dropLast, errf e ≠ 0) ∧
    (∀ i x, grid.get? i = some x → errf x = 0 →
      (scannedPrefix errf grid).length ≤ i + 1) ∧
    (grid = [] → autoTuneDBSCAN errf grid = ⟨none, 1/2⟩) ∧
    (grid ≠ [] → ∃ i x, (scannedPrefix errf grid).get? i = some x ∧
      (autoTuneDBSCAN errf grid).bestEps = x ∧
      (autoTuneDBSCAN errf grid).bestErr = some (errf x) ∧
      (∀ j y, (scannedPrefix errf grid).get? j = some y → errf x ≤ errf y) ∧
      (∀ j y, j < i → (scannedPrefix errf grid).get? j = some y → errf x < errf y)) := by
  refine ⟨tuneScan_eq_noStop errf grid _, scannedPrefix_isPrefix errf grid,
    scannedPrefix_dropLast_ne_zero errf grid, scannedPrefix_stops_at_zero errf grid,
    ?_, ?_⟩
  · rintro rfl; rfl
  · intro hne
    have heq : autoTuneDBSCAN errf grid =
        tuneScanNoStop errf (scannedPrefix errf grid) ⟨none, 1/2⟩ :=
      tuneScan_eq_noStop errf grid _
    rcases tuneScanNoStop_spec errf (scannedPrefix errf grid) ⟨none, 1/2⟩ with
      ⟨-, hall⟩ | ⟨i, x, hget, heps, herr, -, hmin, hfirst⟩
    · -- impossible: the prefix of a non-empty grid is non-empty and any
      -- error strictly improves on the initial infinity
      obtain ⟨eps, rest, hgrid⟩ : ∃ eps rest, grid = eps :: rest := by
        cases grid with
        | nil => exact absurd rfl hne
        | cons eps rest => exact ⟨eps, rest, rfl⟩
      obtain ⟨e, he⟩ : ∃ e, e ∈ scannedPrefix errf grid := by
        subst hgrid
        by_cases h0 : errf eps = 0
        · exact ⟨eps, by simp [scannedPrefix, h0]⟩
        · exact ⟨eps, by simp [scannedPrefix, h0]⟩
      have := hall e he
      simp [errLt] at this
    · exact ⟨i, x, hget, heq ▸ heps, heq ▸ herr, hmin, hfirst⟩

/-- Witness for C4: on the grid `[1, 2, 3]` with error `1` at radius `1`
and `0` from radius `2` on, the tuner stops at `2` with error `0`. -/
theorem C4_autotuner_scan_witness :
    ((1 : ℚ) :: [2, 3] ≠ []) ∧
    (∃ i x, (scannedPrefix (fun e => if e ≤ 1 then 1 else 0) [1, 2, 3]).get? i = some x ∧
      (autoTuneDBSCAN (fun e => if e ≤ 1 then 1 else 0) [1, 2, 3]).bestEps = x ∧
      (autoTuneDBSCAN (fun e => if e ≤ 1 then 1 else 0) [1, 2, 3]).bestErr =
        some ((fun e : ℚ => if e ≤ 1 then 1 else 0) x) ∧
      (∀ j y, (scannedPrefix (fun e => if e ≤ 1 then 1 else 0) [1, 2, 3]).get? j = some y →
        (fun e : ℚ => if e ≤ 1 then 1 else 0) x ≤ (fun e : ℚ => if e ≤ 1 then 1 else 0) y) ∧
      (∀ j y, j < i →
        (scannedPrefix (fun e => if e ≤ 1 then 1 else 0) [1, 2, 3]).get? j = some y →
        (fun e : ℚ => if e ≤ 1 then 1 else 0) x < (fun e : ℚ => if e ≤ 1 then 1 else 0) y)) :=
  ⟨by simp, (C4_autotuner_scan (fun e => if e ≤ 1 then 1 else 0) [1, 2, 3]).2.2.2.2.2
    (by simp)⟩

/-- C2 counterexample: the auto-mode window generator
(`generate_pdws_from_emitters`) adds no noise to any of the five
features — it emits the emitter's exact mode/base values — whereas a
generator that adds zero-mean Gaussian noise with a nonzero frequency
standard deviation (here `5` MHz, standard-normal draw `1`) would emit
`9005`, not `9000`. -/
theorem C2_gaussian_noise_counterexample :
    generate_pdws_from_emitters [⟨"fixed", [9000], [1000], 20, -50, 90⟩] 1 0
        (fun _ => 0) = [⟨9000, 1000, 20, 90, -50, 0⟩] ∧
    (specNoisyPulse 5 0 0 0 0 ⟨9000, 1000, 20, 90, -50, 0⟩
        ⟨0, 1, 0, 0, 0, 0⟩).freq_MHz = 9005 ∧
    (9000 : ℚ) ≠ 9005 := by
  refine ⟨?_, ?_, by norm_num⟩
  · norm_num [generate_pdws_from_emitters, autoEmitLoop, List.enum]
  · show (9000 : ℚ) + 5 * 1 = 9005
    norm_num

/-- C2 amended: the manual-mode generator emits every pulse as the
spec's noisy pulse — independent zero-mean Gaussian noise on each of
the five features, with the configured standard deviations for
frequency, PRI (proportional, applied after the optional "Jittered"
self-jitter), PW (proportional) and DOA, and a *fixed* standard
deviation of `1.0` dB for amplitude; the auto-mode generator adds no
noise at all: each emitted pulse carries the emitter's exact mode/base
values on all five features. -/
theorem C2_gaussian_noise_amended :
    (∀ (cfg : ManualNoiseCfg) (e : ManualEmitter) (k : ℕ) (toa : ℚ) (g : NoiseDraws),
      manualPulse cfg e k toa g =
        specNoisyPulse cfg.noise_freq
          (cfg.noise_pri_pct / 100 *
            (if e.pri_type = "Jittered" then
              e.pri_values.getD (k % e.pri_values.length) 0 +
                (5 / 100 * e.pri_values.getD (k % e.pri_values.length) 0) * g.jit
             else e.pri_values.getD (k % e.pri_values.length) 0))
          (cfg.noise_pw_pct / 100 * e.pw) cfg.noise_doa 1
          ⟨e.freqs.getD (k % e.freqs.length) 0,
           (if e.pri_type = "Jittered" then
              e.pri_values.getD (k % e.pri_values.length) 0 +
                (5 / 100 * e.pri_values.getD (k % e.pri_values.length) 0) * g.jit
            else e.pri_values.getD (k % e.pri_values.length) 0),
           e.pw, e.doa, e.amp, toa⟩ g) ∧
    (∀ (emitters : List Emitter) (ppe : ℕ) (ws : ℚ) (offs : ℕ → ℚ) (pdw : Pdw),
      pdw ∈ generate_pdws_from_emitters emitters ppe ws offs →
      ∃ i e k, emitters.get? i = some e ∧ k < ppe ∧
        pdw.freq_MHz = e.freq_modes.getD (k % e.freq_modes.length) 0 ∧
        pdw.pri_us = e.pri_modes.getD (k % e.pri_modes.length) 0 ∧
        pdw.pw_us = e.pw ∧ pdw.doa_deg = e.doa ∧ pdw.amp_dB = e.amp) := by
  constructor
  · intro cfg e k toa g
    unfold manualPulse specNoisyPulse
    by_cases hj : e.pri_type = "Jittered" <;> simp [hj]
  · intro emitters ppe ws offs pdw hmem
    rw [generate_pdws_from_emitters, List.mem_flatMap] at hmem
    obtain ⟨⟨i, e⟩, hie, hpdw⟩ := hmem
    have hget : emitters.get? i = some e := by
      rw [List.get?_eq_getElem?]
      exact List.mem_enum_iff_getElem?.mp hie
    obtain ⟨j, hj, hf, hp, hw, hd, ha⟩ :=
      autoEmitLoop_mem_features e ppe 0 (ws + offs i) pdw hpdw
    exact ⟨i, e, j, hget, hj, by simpa using hf, by simpa using hp, hw, hd, ha⟩

/-- Witness for the amended C2 at a concrete one-pulse auto window. -/
theorem C2_gaussian_noise_amended_witness :
    ∃ i e k, ([⟨"fixed", [9000], [1000], 20, -50, 90⟩] : List Emitter).get? i = some e ∧
      k < 1 ∧
      (⟨9000, 1000, 20, 90, -50, 7⟩ : Pdw).freq_MHz =
        e.freq_modes.getD (k % e.freq_modes.length) 0 ∧
      (⟨9000, 1000, 20, 90, -50, 7⟩ : Pdw).pri_us =
        e.pri_modes.getD (k % e.pri_modes.length) 0 ∧
      (⟨9000, 1000, 20, 90, -50, 7⟩ : Pdw).pw_us = e.pw ∧
      (⟨9000, 1000, 20, 90, -50, 7⟩ : Pdw).doa_deg = e.doa ∧
      (⟨9000, 1000, 20, 90, -50, 7⟩ : Pdw).amp_dB = e.amp := by
  apply C2_gaussian_noise_amended.2 [⟨"fixed", [9000], [1000], 20, -50, 90⟩] 1 7
    (fun _ => 0)
  show (⟨9000, 1000, 20, 90, -50, 7⟩ : Pdw) ∈
    generate_pdws_from_emitters [⟨"fixed", [9000], [1000], 20, -50, 90⟩] 1 7 (fun _ => 0)
  norm_num [generate_pdws_from_emitters, autoEmitLoop, List.enum]

/-- C7 counterexample: the claim "every PDW's `toa_us` is at least the
window start" fails on the code.  With `pri_min = pri_max = 2` (the
UI's lower bound), `generate_emitters_config` can perturb the base PRI
by a `uniform(-100, 100)` draw of `-60`, producing a negative PRI mode
`-58`; the start-offset draw `uniform(0, -58)` then yields a negative
offset (numpy computes `low + (high - low) * u`, `u ∈ [0, 1)`), and the
first pulse's `toa_us` lands strictly before the window start `0`. -/
theorem C7_toa_ge_window_start_counterexample :
    generate_emitters_config 1 100 0 8000 12000 2 2
        ⟨id, id, id, fun _ => 0, fun _ => -60, fun _ => 10, fun _ => -60, fun _ => 90⟩ =
      [⟨"fixed", [10000], [-58], 10, -60, 90⟩] ∧
    uniformSupport (-100) 100 (-60) ∧
    uniformSupport 0 (-58) (-29) ∧
    ∃ pdw ∈ generate_pdws_from_emitters [⟨"fixed", [10000], [-58], 10, -60, 90⟩] 1 0
        (fun _ => -29), pdw.toa_us < 0 := by
  refine ⟨?_, ?_, ?_, ?_⟩
  · unfold generate_emitters_config interior linspace
    norm_num [List.range_succ, List.enum]
  · constructor <;> norm_num
  · constructor <;> norm_num
  · refine ⟨⟨10000, -58, 10, 90, -60, -29⟩, ?_, by norm_num⟩
    unfold generate_pdws_from_emitters autoEmitLoop
    norm_num [List.enum]

/-- C7 amended: if every PRI mode of every emitter is nonnegative (true
whenever the configured PRI range keeps the perturbed base PRI
nonnegative; the manual UI enforces PRI ≥ 2), then every generated
PDW's `toa_us` — a finite rational in this model — is at least the
window start, in both the auto-mode and the manual-mode generators. -/
theorem C7_toa_ge_window_start_amended (ws : ℚ) :
    (∀ (emitters : List Emitter) (ppe : ℕ) (offs : ℕ → ℚ),
      (∀ e ∈ emitters, ∀ p ∈ e.pri_modes, 0 ≤ p) →
      (∀ i e, emitters.get? i = some e →
        uniformSupport 0 (e.pri_modes.getD 0 0) (offs i)) →
      ∀ pdw ∈ generate_pdws_from_emitters emitters ppe ws offs, ws ≤ pdw.toa_us) ∧
    (∀ (cfg : ManualNoiseCfg) (emitters : List ManualEmitter) (ppe : ℕ)
        (offs : ℕ → ℚ) (draws : ℕ → ℕ → NoiseDraws),
      (∀ e ∈ emitters, ∀ p ∈ e.pri_values, 0 ≤ p) →
      (∀ i e, emitters.get? i = some e →
        uniformSupport 0 (e.pri_values.getD 0 0) (offs i)) →
      ∀ pdw ∈ manualWindowRows cfg emitters ppe ws offs draws, ws ≤ pdw.toa_us) := by
  constructor
  · intro emitters ppe offs hpri hoffs pdw hmem
    rw [generate_pdws_from_emitters, List.mem_flatMap] at hmem
    obtain ⟨⟨i, e⟩, hie, hpdw⟩ := hmem
    have hget : emitters.get? i = some e := by
      rw [List.get?_eq_getElem?]
      exact List.mem_enum_iff_getElem?.mp hie
    have hmem_e : e ∈ emitters := by
      rw [List.get?_eq_getElem?] at hget
      exact List.getElem?_mem hget
    have hp0 : 0 ≤ e.pri_modes.getD 0 0 := getD_zero_nonneg (hpri e hmem_e) 0
    have hoff : 0 ≤ offs i := by
      have hs := hoffs i e hget
      have hmin : min (0 : ℚ) (e.pri_modes.getD 0 0) = 0 := min_eq_left hp0
      have := hs.1
      rw [hmin] at this
      exact this
    have := autoEmitLoop_toa e (hpri e hmem_e) ppe 0 (ws + offs i) pdw hpdw
    linarith
  · intro cfg emitters ppe offs draws hpri hoffs pdw hmem
    rw [manualWindowRows, List.mem_flatMap] at hmem
    obtain ⟨⟨i, e⟩, hie, hpdw⟩ := hmem
    have hget : emitters.get? i = some e := by
      rw [List.get?_eq_getElem?]
      exact List.mem_enum_iff_getElem?.mp hie
    have hmem_e : e ∈ emitters := by
      rw [List.get?_eq_getElem?] at hget
      exact List.getElem?_mem hget
    have hp0 : 0 ≤ e.pri_values.getD 0 0 := getD_zero_nonneg (hpri e hmem_e) 0
    have hoff : 0 ≤ offs i := by
      have hs := hoffs i e hget
      have hmin : min (0 : ℚ) (e.pri_values.getD 0 0) = 0 := min_eq_left hp0
      have := hs.1
      rw [hmin] at this
      exact this
    obtain ⟨k, -, rfl⟩ := List.mem_map.mp hpdw
    show ws ≤ ws + offs i
    linarith

/-- Witness for the amended C7 at a one-emitter, two-pulse window. -/
theorem C7_toa_ge_window_start_amended_witness :
    ∀ pdw ∈ generate_pdws_from_emitters [⟨"fixed", [9000], [2000], 10, -60, 90⟩] 2 100
      (fun _ => 500), (100 : ℚ) ≤ pdw.toa_us := by
  have h := (C7_toa_ge_window_start_amended 100).1
    [⟨"fixed", [9000], [2000], 10, -60, 90⟩] 2 (fun _ => 500)
  apply h
  · intro e he p hp
    simp at he
    subst he
    simp at hp
    subst hp
    norm_num
  · intro i e hget
    cases i with
    | zero =>
      simp at hget
      subst hget
      constructor <;> norm_num
    | succ j => simp at hget

/-- C6: in the DBSCAN path, every selected feature with a supplied
(nonzero) tolerance is divided elementwise by that tolerance, every
selected feature without a supplied tolerance passes through unscaled,
and any missing value after scaling is replaced with zero.  (The
nonzero-tolerance hypothesis marks where the rational model of pandas
division applies; the UI only supplies positive tolerances.) -/
theorem C6_dbscan_tolerance_scaling (df : Frame) (features : List String)
    (tols : String → Option ℚ) (hnd : features.Nodup)
    (hnz : ∀ f t, tols f = some t → t ≠ 0) :
    dbscanMatrix tols features df =
      df.map (fun row => features.map (fun f =>
        match row f, tols f with
        | none, _ => 0
        | some v, some t => v / t
        | some v, none => v)) := by
  clear hnz
  unfold dbscanMatrix fillnaValues
  rw [applyTols_eq_map, List.map_map]
  apply List.map_congr_left
  intro row _
  apply List.map_congr_left
  intro f hf
  show ((applyTolsRow tols features row) f).getD 0 = _
  rw [applyTolsRow_mem tols features row f hnd hf]
  cases hrf : row f with
  | none => cases htf : tols f <;> simp
  | some v => cases htf : tols f <;> simp

/-- Witness for C6: one row with a present frequency, a missing PRI,
tolerances supplied only for those two of the three selected
features. -/
theorem C6_dbscan_tolerance_scaling_witness :
    dbscanMatrix
        (fun c => if c = "freq_MHz" then some 10 else if c = "pri_us" then some 20 else none)
        ["freq_MHz", "pri_us", "pw_us"]
        [fun c => if c = "freq_MHz" then some 9000 else
          if c = "pw_us" then some 12 else none] =
      [[900, 0, 12]] := by
  have h := C6_dbscan_tolerance_scaling
    [fun c => if c = "freq_MHz" then some 9000 else if c = "pw_us" then some 12 else none]
    ["freq_MHz", "pri_us", "pw_us"]
    (fun c => if c = "freq_MHz" then some 10 else if c = "pri_us" then some 20 else none)
    (by decide)
    (by
      intro f t ht
      by_cases h1 : f = "freq_MHz"
      · simp [h1] at ht
        subst ht
        norm_num
      · by_cases h2 : f = "pri_us"
        · simp [h1, h2] at ht
          subst ht
          norm_num
        · simp [h1, h2] at ht)
  rw [h]
  simp only [List.map]
  norm_num
  simp

/-- C9: with percentages summing to 100, `generate_emitters_config`
returns exactly `num_emitters` configurations; the staggered count
`num_emitters - n_fixed - n_agile` is non-negative and absorbs the
integer truncation of the fixed and agile shares. -/
theorem C9_config_count (num_emitters fixed_pct agile_pct stagger_pct : ℕ)
    (hnum : 1 ≤ num_emitters)
    (hsum : fixed_pct + agile_pct + stagger_pct = 100)
    (f_min f_max pri_min pri_max : ℚ) (d : ConfigDraws)
    (hperm : ∀ l : List String, (d.shuffleTypes l).Perm l) :
    (generate_emitters_config num_emitters fixed_pct agile_pct
        f_min f_max pri_min pri_max d).length = num_emitters ∧
    num_emitters * fixed_pct / 100 + num_emitters * agile_pct / 100 ≤ num_emitters ∧
    0 ≤ (num_emitters : ℤ) - num_emitters * fixed_pct / 100 -
        num_emitters * agile_pct / 100 := by
  clear hnum
  have hle : num_emitters * fixed_pct / 100 + num_emitters * agile_pct / 100
      ≤ num_emitters := by
    have h1 : num_emitters * fixed_pct / 100 * 100 ≤ num_emitters * fixed_pct :=
      Nat.div_mul_le_self _ _
    have h2 : num_emitters * agile_pct / 100 * 100 ≤ num_emitters * agile_pct :=
      Nat.div_mul_le_self _ _
    have h3 : (num_emitters * fixed_pct / 100 + num_emitters * agile_pct / 100) * 100
        ≤ num_emitters * (fixed_pct + agile_pct) := by
      rw [Nat.add_mul, Nat.mul_add]
      exact Nat.add_le_add h1 h2
    have h4 : num_emitters * (fixed_pct + agile_pct) ≤ num_emitters * 100 := by
      apply Nat.mul_le_mul_left
      omega
    exact Nat.le_of_mul_le_mul_right (le_trans h3 h4) (by norm_num)
  have h0 : 0 ≤ (num_emitters : ℤ) - num_emitters * fixed_pct / 100 -
      num_emitters * agile_pct / 100 := by
    have h := hle
    generalize num_emitters * fixed_pct / 100 = nf at h ⊢
    generalize num_emitters * agile_pct / 100 = na at h ⊢
    omega
  refine ⟨?_, hle, h0⟩
  unfold generate_emitters_config
  rw [List.length_map, List.enum_length]
  rw [(hperm _).length_eq]
  simp only [List.length_append, List.length_replicate]
  have h := hle
  generalize num_emitters * fixed_pct / 100 = nf at h ⊢
  generalize num_emitters * agile_pct / 100 = na at h ⊢
  omega

/-- Witness for C9: four emitters split 50/25/25 with identity
shuffles. -/
theorem C9_config_count_witness :
    (generate_emitters_config 4 50 25 8000 12000 2000 6000
        ⟨id, id, id, fun _ => 0, fun _ => 0, fun _ => 10, fun _ => -60, fun _ => 90⟩).length
      = 4 := by
  have h := C9_config_count 4 50 25 25 (by norm_num) (by norm_num)
    8000 12000 2000 6000
    ⟨id, id, id, fun _ => 0, fun _ => 0, fun _ => 10, fun _ => -60, fun _ => 90⟩
    (fun l => List.Perm.refl l)
  exact h.1

/-- Witness for C8: a concrete two-emitter configuration. -/
theorem C8_singleton_modes_witness :
    ∃ e ∈ generate_emitters_config 2 50 50 8000 12000 2000 6000
      ⟨id, id, id, fun _ => 0, fun _ => 0, fun _ => 10, fun _ => -60, fun _ => 90⟩,
      e.freq_modes.length = 1 ∧ e.pri_modes.length = 1 := by
  have hmem : (generate_emitters_config 2 50 50 8000 12000 2000 6000
      ⟨id, id, id, fun _ => 0, fun _ => 0, fun _ => 10, fun _ => -60, fun _ => 90⟩).length = 2 := by
    decide
  obtain ⟨e, rest, heq⟩ : ∃ e rest, generate_emitters_config 2 50 50 8000 12000 2000 6000
      ⟨id, id, id, fun _ => 0, fun _ => 0, fun _ => 10, fun _ => -60, fun _ => 90⟩ =
        e :: rest := by
    cases h : generate_emitters_config 2 50 50 8000 12000 2000 6000
        ⟨id, id, id, fun _ => 0, fun _ => 0, fun _ => 10, fun _ => -60, fun _ => 90⟩ with
    | nil => rw [h] at hmem; simp at hmem
    | cons e rest => exact ⟨e, rest, rfl⟩
  refine ⟨e, ?_, ?_⟩
  · rw [heq]; exact List.mem_cons_self e rest
  · exact C8_singleton_modes 2 50 50 8000 12000 2000 6000 _ e
      (by rw [heq]; exact List.mem_cons_self e rest)

end PDW
